import Mathlib

/-!
Verification of the track-resolution engine in `match_playlist_to_library.py`.

Strings are shallowly embedded as `List Char` (`Str`).  File-system paths are
lists of path components (`FsPath`).  The Unicode NFKD normalisation performed
by `unicodedata.normalize("NFKD", s)` is kept abstract: every definition is
parameterised by a function `nfkd : Str → Str`; the only property of real NFKD
that any theorem relies on is that it leaves strings consisting of lowercase
ASCII letters, digits and spaces unchanged (true of Unicode NFKD, since ASCII
characters have no compatibility decompositions).  Concrete evaluations use
`nfkd := id`, correct for the all-ASCII inputs they involve.

Python regular-expression substitutions are modelled by direct recursive
scanners that reproduce leftmost, non-overlapping matching of the concrete
patterns appearing in the source (`\s*\(feat\.?.*?\)`, `\s*\[feat\.?.*?\]`,
`\s*feat\.?\s+.*$`, `[^a-z0-9\s]`, `\s+`, `^\d+\.?\s+`, `^[-\s]+`,
`\s*-\s*|\s*–\s*|\s*—\s*`, `\s*-\s*(single|ep|album|lp)\s*$`,
`\s*[\[\(]\d{4}[\]\)]\s*$`, `\s*\([^)]*\)\s*`, `\s*\[[^\]]*\]\s*`).
`\d` and the IGNORECASE word comparison are modelled over ASCII.
-/

/-- Strings are lists of characters. -/
abbrev Str := List Char

/-- A file-system path as a list of components (absolute, root-first);
the last component is the file name.  `str(p)` on a `pathlib.Path` is
injective on such paths, so paths themselves stand for their rendering. -/
abbrev FsPath := List Str

/-- Python whitespace (`\s` for `str` patterns / `str.isspace`): space, tab,
newline, carriage return, vertical tab, form feed, plus the Unicode space
and separator characters (given by code point). -/
def isPyWS (c : Char) : Bool :=
  c.toNat = 32 || c.toNat = 9 || c.toNat = 10 || c.toNat = 13 ||
  c.toNat = 11 || c.toNat = 12 ||
  (0x1c ≤ c.toNat && c.toNat ≤ 0x1f) || c.toNat = 0x85 || c.toNat = 0xa0 ||
  c.toNat = 0x1680 || (0x2000 ≤ c.toNat && c.toNat ≤ 0x200a) ||
  c.toNat = 0x2028 || c.toNat = 0x2029 || c.toNat = 0x202f ||
  c.toNat = 0x205f || c.toNat = 0x3000

/-- ASCII lowercase letter (`a`–`z`). -/
def isLowerAlpha (c : Char) : Bool := 97 ≤ c.toNat && c.toNat ≤ 122

/-- ASCII digit (`0`–`9`). -/
def isDigitC (c : Char) : Bool := 48 ≤ c.toNat && c.toNat ≤ 57

/-- Characters kept by the `[^a-z0-9\s]` removal step of `_norm`:
lowercase ASCII letters, digits, and whitespace. -/
def isKeptChar (c : Char) : Bool := isLowerAlpha c || isDigitC c || isPyWS c

/-- `str.strip()`: remove leading and trailing whitespace. -/
def pyStrip (l : Str) : Str :=
  ((l.dropWhile isPyWS).reverse.dropWhile isPyWS).reverse

theorem length_dropWhile_le' (p : Char → Bool) (l : Str) :
    (l.dropWhile p).length ≤ l.length := by
  induction l with
  | nil => simp [List.dropWhile]
  | cons c rest ih =>
    by_cases h : p c
    · simp only [List.dropWhile, h]
      exact Nat.le_succ_of_le ih
    · simp [List.dropWhile, h]

/-- `re.sub(r"\s+", " ", s)`, written with a flag recording whether the
previous character was whitespace (i.e. whether the current whitespace run
has already emitted its space). -/
def collapseWSAux : Bool → Str → Str
  | _, [] => []
  | prevWS, c :: rest =>
    if isPyWS c then
      if prevWS then collapseWSAux true rest
      else ' ' :: collapseWSAux true rest
    else c :: collapseWSAux false rest

/-- `re.sub(r"\s+", " ", s)`: collapse every whitespace run to one space. -/
def collapseWS (l : Str) : Str := collapseWSAux false l

/-- `str.replace("&", "and")`. -/
def ampToAnd : Str → Str
  | [] => []
  | c :: rest =>
    if c = '&' then 'a' :: 'n' :: 'd' :: ampToAnd rest
    else c :: ampToAnd rest

/-- Does `pat` occur as a contiguous substring? -/
def hasSub (pat : Str) : Str → Bool
  | [] => pat.isEmpty
  | c :: rest => pat.isPrefixOf (c :: rest) || hasSub pat rest

/-- `str.split()`: split on whitespace runs, discarding empty pieces.
`cur` is the reversed token currently being read. -/
def pySplitGo (cur : Str) : Str → List Str
  | [] => if cur.isEmpty then [] else [cur.reverse]
  | c :: rest =>
    if isPyWS c then
      if cur.isEmpty then pySplitGo [] rest
      else cur.reverse :: pySplitGo [] rest
    else pySplitGo (c :: cur) rest

/-- `str.split()`. -/
def pySplit (l : Str) : List Str := pySplitGo [] l

/-- `set(s.split())`: the set of whitespace-separated tokens. -/
def tokensOf (l : Str) : Finset Str := (pySplit l).toFinset

/-! ### The `feat` substitutions of `_norm` -/

/-- Greedy `.*$` (`.` does not match a newline; `$` also matches just before a
final newline).  Returns the unconsumed suffix (`[]` or `['\n']`), or `none`
when no match exists from this position. -/
def dotStarEndLeft : Str → Option Str
  | [] => some []
  | ['\n'] => some ['\n']
  | c :: rest => if c = '\n' then none else dotStarEndLeft rest

/-- `\s+.*$` from this position.  A greedy `\s+` takes the whole whitespace
run; backtracking to a shorter run only moves whitespace characters into
`.*`, which fails on exactly the same inputs, so the maximal run is
equivalent. -/
def wsPlusDotStarEndLeft : Str → Option Str
  | [] => none
  | c :: rest =>
    if isPyWS c then dotStarEndLeft (rest.dropWhile isPyWS) else none

/-- `feat\.?\s+.*$` at the start of the list.  When the character after
`feat` is a dot, the alternative of not consuming it cannot succeed
(`\s+` fails on the dot), so the dot is always consumed. -/
def featTailCoreAt : Str → Option Str
  | 'f' :: 'e' :: 'a' :: 't' :: rest =>
    match rest with
    | '.' :: r2 => wsPlusDotStarEndLeft r2
    | r2 => wsPlusDotStarEndLeft r2
  | _ => none

/-- `re.sub(r"\s*feat\.?\s+.*$", "", s)`: scan for the leftmost match
(whose `\s*` absorbs the whitespace run directly before `feat`) and delete
it; the matched region reaches the end of the string, so at most one match
occurs. -/
def subFeatTail : Str → Str
  | [] => []
  | c :: rest =>
    match featTailCoreAt ((c :: rest).dropWhile isPyWS) with
    | some leftover => leftover
    | none => c :: subFeatTail rest

/-- Lazy `.*?` followed by the closing delimiter `cl` (`.` does not match a
newline): the nearest `cl` with no intervening newline.  Returns the suffix
after it. -/
def findCloseNoNL (cl : Char) : Str → Option Str
  | [] => none
  | c :: rest =>
    if c = cl then some rest
    else if c = '\n' then none
    else findCloseNoNL cl rest

/-- `\(feat\.?.*?\)` (or the `[`/`]` variant) at the start of the list;
the optional dot is subsumed by the `.*?` wildcard.  Returns the suffix
after the match. -/
def featGroupAt (op cl : Char) : Str → Option Str
  | o :: 'f' :: 'e' :: 'a' :: 't' :: rest =>
    if o = op then findCloseNoNL cl rest else none
  | _ => none

theorem findCloseNoNL_length {cl : Char} :
    ∀ {l after : Str}, findCloseNoNL cl l = some after →
      after.length < l.length := by
  intro l
  induction l with
  | nil => intro after h; simp [findCloseNoNL] at h
  | cons c rest ih =>
    intro after h
    simp only [findCloseNoNL] at h
    by_cases h1 : c = cl
    · simp only [h1, if_pos rfl] at h
      cases h
      simp
    · rw [if_neg h1] at h
      by_cases h2 : c = '\n'
      · simp [h2] at h
      · rw [if_neg h2] at h
        exact Nat.lt_succ_of_lt (ih h)

theorem featGroupAt_length {op cl : Char} {l after : Str}
    (h : featGroupAt op cl l = some after) : after.length < l.length := by
  unfold featGroupAt at h
  split at h
  · split at h
    · have := findCloseNoNL_length h
      simp only [List.length_cons]
      omega
    · exact absurd h (by simp)
  · exact absurd h (by simp)

/-- `re.sub(r"\s*\(feat\.?.*?\)", "", s)` (with `op = '('`, `cl = ')'`) and
its square-bracket twin: delete every leftmost non-overlapping match, each
match absorbing the whitespace run directly before the opening delimiter.
Structural recursion on a fuel counter; each step strictly shortens the
list, so `fuel = l.length` (see `subFeatGroup`) is never exhausted. -/
def subFeatGroupF (op cl : Char) : Nat → Str → Str
  | 0, l => l
  | _ + 1, [] => []
  | fuel + 1, c :: rest =>
    match featGroupAt op cl ((c :: rest).dropWhile isPyWS) with
    | some after => subFeatGroupF op cl fuel after
    | none => c :: subFeatGroupF op cl fuel rest

/-- `re.sub(r"\s*\(feat\.?.*?\)", "", s)` and its square-bracket twin. -/
def subFeatGroup (op cl : Char) (l : Str) : Str :=
  subFeatGroupF op cl l.length l

/-! ### Parenthetical stripping (`\s*\([^)]*\)\s*` → `' '`) -/

/-- `[^)]*\)` (greedy; the class admits newlines): the suffix after the
first closing delimiter. -/
def findCloseAny (cl : Char) : Str → Option Str
  | [] => none
  | c :: rest => if c = cl then some rest else findCloseAny cl rest

theorem findCloseAny_length {cl : Char} :
    ∀ {l after : Str}, findCloseAny cl l = some after →
      after.length < l.length := by
  intro l
  induction l with
  | nil => intro after h; simp [findCloseAny] at h
  | cons c rest ih =>
    intro after h
    simp only [findCloseAny] at h
    by_cases h1 : c = cl
    · simp only [h1, if_pos rfl] at h
      cases h
      simp
    · rw [if_neg h1] at h
      exact Nat.lt_succ_of_lt (ih h)

/-- `re.sub(r'\s*\([^)]*\)\s*', ' ', s)` (and the `[`/`]` variant):
replace every leftmost non-overlapping match — surrounding whitespace
included — by a single space.  Fuelled structural recursion; each step
strictly shortens the list, so `fuel = l.length` is never exhausted. -/
def bracketSubF (op cl : Char) : Nat → Str → Str
  | 0, l => l
  | _ + 1, [] => []
  | fuel + 1, c :: rest =>
    match (c :: rest).dropWhile isPyWS with
    | o :: r =>
      if o = op then
        match findCloseAny cl r with
        | some after => ' ' :: bracketSubF op cl fuel (after.dropWhile isPyWS)
        | none => c :: bracketSubF op cl fuel rest
      else c :: bracketSubF op cl fuel rest
    | [] => c :: bracketSubF op cl fuel rest

/-- `re.sub(r'\s*\([^)]*\)\s*', ' ', s)` (and the `[`/`]` variant). -/
def bracketSub (op cl : Char) (l : Str) : Str := bracketSubF op cl l.length l

/-! ### Track-number stripping and dash splitting -/

/-- `re.sub(r'^\d+\.?\s+', '', s)`: drop a leading digit run, an optional
dot, and the following whitespace run.  Backtracking to a shorter digit run
cannot help (the next character would be a digit, failing both the optional
dot and `\s+`), so the maximal runs are equivalent.  `\d` is modelled as an
ASCII digit. -/
def stripTrackNum (l : Str) : Str :=
  let ds := l.takeWhile isDigitC
  if ds.isEmpty then l
  else
    let r := l.dropWhile isDigitC
    let r2 := match r with
      | '.' :: t => t
      | t => t
    match r2 with
    | c :: t => if isPyWS c then t.dropWhile isPyWS else l
    | [] => l

/-- The dash-like separators of `_extract_track_name_from_filename`:
hyphen, en dash, em dash. -/
def isDashSep (c : Char) : Bool := c = '-' || c = '–' || c = '—'

/-- `\s*-\s*|\s*–\s*|\s*—\s*` at the start of the list (the `\s*` pieces
absorbing the surrounding whitespace runs); returns the suffix after the
match. -/
def dashSepAt (l : Str) : Option Str :=
  match l.dropWhile isPyWS with
  | c :: rest => if isDashSep c then some (rest.dropWhile isPyWS) else none
  | [] => none

theorem dashSepAt_length {l after : Str} (h : dashSepAt l = some after) :
    after.length < l.length := by
  unfold dashSepAt at h
  split at h
  · split at h
    · cases h
      rename_i c rest hd _
      calc (rest.dropWhile isPyWS).length
          ≤ rest.length := length_dropWhile_le' _ _
        _ < (c :: rest).length := by simp
        _ ≤ l.length := by rw [← hd]; exact length_dropWhile_le' _ _
    · exact absurd h (by simp)
  · exact absurd h (by simp)

/-- `re.split(r'\s*-\s*|\s*–\s*|\s*—\s*', s)`: split on every leftmost
non-overlapping separator match.  `cur` is the reversed piece currently
being read.  Fuelled structural recursion; each step strictly shortens the
list, so `fuel = l.length` is never exhausted. -/
def dashSplitGo (cur : Str) : Nat → Str → List Str
  | 0, _ => [cur.reverse]
  | _ + 1, [] => [cur.reverse]
  | fuel + 1, c :: rest =>
    match dashSepAt (c :: rest) with
    | some after => cur.reverse :: dashSplitGo [] fuel after
    | none => dashSplitGo (c :: cur) fuel rest

/-- `re.split` on the dash separators. -/
def dashSplit (l : Str) : List Str := dashSplitGo [] l.length l

section WithNFKD

-- `unicodedata.normalize("NFKD", ...)`, kept abstract (see module docs).
variable (nfkd : Str → Str)

/-- `_norm`: the six-step canonicalisation.  The `None` guard of the source
is outside the model (callers always pass strings).  `str.lower()` is
modelled by ASCII `Char.toLower`; a later step removes every character that
is not a lowercase ASCII letter, digit or whitespace. -/
def norm (s : Str) : Str :=
  let s1 := nfkd s
  let s2 := s1.map Char.toLower
  let s3 := subFeatGroup '(' ')' s2
  let s4 := subFeatGroup '[' ']' s3
  let s5 := subFeatTail s4
  let s6 := ampToAnd s5
  let s7 := s6.filter isKeptChar
  pyStrip (collapseWS s7)

/-- `_extract_track_name_from_filename(filename_stem, artist)`. -/
def extractTrackName (stem artist : Str) : Str :=
  let normArtist := norm nfkd artist
  let cleaned := stripTrackNum stem
  let normStem := norm nfkd cleaned
  let viaArtistPre : Option Str :=
    if normArtist.isPrefixOf normStem then
      let remaining := pyStrip (normStem.drop normArtist.length)
      let remaining := remaining.dropWhile (fun c => c = '-' || isPyWS c)
      if remaining.isEmpty then none else some remaining
    else none
  match viaArtistPre with
  | some r => r
  | none =>
    let parts := dashSplit cleaned
    if parts.length > 1 then
      if norm nfkd (parts.headD []) = normArtist then
        norm nfkd (List.intercalate [' '] (parts.drop 1))
      else norm nfkd (parts.getLastD [])
    else normStem

/-- The album-suffix words of `_normalize_album_name`, tried in the
alternation order of the pattern. -/
def albumSuffixWords : List Str :=
  [['s','i','n','g','l','e'], ['e','p'], ['a','l','b','u','m'], ['l','p']]

/-- One alternative of `\s*-\s*(single|ep|album|lp)\s*$` checked against the
reversed string `r1` (trailing whitespace already removed): the word
(case-insensitively, over ASCII), optional whitespace, a hyphen, and the
whitespace run the leading `\s*` absorbs.  Returns the remaining reversed
prefix. -/
def albumSuffixTryWord (w : Str) (r1 : Str) : Option Str :=
  if w.reverse.isPrefixOf (r1.map Char.toLower) then
    match (r1.drop w.length).dropWhile isPyWS with
    | '-' :: r3 => some (r3.dropWhile isPyWS)
    | _ => none
  else none

/-- `re.sub` of `\s*-\s*(single|ep|album|lp)\s*$` with IGNORECASE, deleting
the match.  The pattern is anchored at the end (it closes with `\s*$`), so
the match is located from the right. -/
def stripAlbumSuffixWord (l : Str) : Str :=
  let r1 := l.reverse.dropWhile isPyWS
  match (albumSuffixWords.filterMap (fun w => albumSuffixTryWord w r1)).head? with
  | some r => r.reverse
  | none => l

/-- `re.sub(r'\s*[\[\(]\d{4}[\]\)]\s*$', '', album)`: delete a trailing
parenthesised or bracketed 4-digit year (delimiters need not pair up). -/
def stripAlbumYear (l : Str) : Str :=
  match l.reverse.dropWhile isPyWS with
  | c :: r2 =>
    if c = ')' || c = ']' then
      if (r2.take 4).length = 4 && (r2.take 4).all isDigitC then
        match r2.drop 4 with
        | o :: r3 =>
          if o = '(' || o = '[' then (r3.dropWhile isPyWS).reverse else l
        | [] => l
      else l
    else l
  | [] => l

/-- `_normalize_album_name(album)`. -/
def normalizeAlbumName (album : Str) : Str :=
  if album.isEmpty then []
  else pyStrip (norm nfkd (stripAlbumYear (stripAlbumSuffixWord album)))

end WithNFKD

/-! ### File paths and the library index -/

/-- `AUDIO_EXTS`. -/
def audioExts : List Str :=
  [".mp3".data, ".m4a".data, ".flac".data, ".wav".data, ".aiff".data,
   ".aif".data, ".ogg".data, ".opus".data, ".alac".data]

/-- `Path.name`: the final path component. -/
def fileName (f : FsPath) : Str := f.getLastD []

/-- Index of the last dot in a file name, if any. -/
def lastDotIdx (name : Str) : Option Nat :=
  match name.reverse.findIdx? (· = '.') with
  | some j => some (name.length - 1 - j)
  | none => none

/-- `Path.suffix`: the extension from the last dot, nonempty only when that
dot is neither the first nor the last character. -/
def pySuffix (name : Str) : Str :=
  match lastDotIdx name with
  | some i => if 0 < i ∧ i < name.length - 1 then name.drop i else []
  | none => []

/-- `Path.stem`: the file name without `pySuffix`. -/
def pyStem (name : Str) : Str :=
  match lastDotIdx name with
  | some i => if 0 < i ∧ i < name.length - 1 then name.take i else name
  | none => name

/-- The filter of `_iter_audio_files`:
`p.suffix.lower() in AUDIO_EXTS` (`p.is_file()` is part of the model of the
walked file list). -/
def isAudioFile (f : FsPath) : Bool :=
  audioExts.contains ((pySuffix (fileName f)).map Char.toLower)

/-- `f.parent.name`. -/
def parentName (f : FsPath) : Str := f.dropLast.getLastD []

/-- `f.parent.parent.name`. -/
def grandParentName (f : FsPath) : Str := f.dropLast.dropLast.getLastD []

/-- A normalized `(artist, album, track)` index key. -/
abbrev IdxKey := Str × Str × Str

/-- The library index: an insertion-ordered association list, modelling the
Python dict `(norm_artist, norm_album, norm_track) -> [paths...]`. -/
abbrev Index := List (IdxKey × List FsPath)

/-- `index.get(key, [])`: the list of the first entry with this key. -/
def indexGet : Index → IdxKey → List FsPath
  | [], _ => []
  | e :: rest, k => if e.1 = k then e.2 else indexGet rest k

/-- `index.setdefault(key, []).append(f)`: append to the existing entry,
or add a new entry at the end (dict insertion order). -/
def indexAppend : Index → IdxKey → FsPath → Index
  | [], k, f => [(k, [f])]
  | e :: rest, k, f =>
    if e.1 = k then (e.1, e.2 ++ [f]) :: rest
    else e :: indexAppend rest k f

section WithNFKD2

variable (nfkd : Str → Str)

/-- The primary key `(norm_artist, norm_album, norm_track)` of a file. -/
def primaryKey (f : FsPath) : IdxKey :=
  (norm nfkd (grandParentName f), norm nfkd (parentName f),
   norm nfkd (pyStem (fileName f)))

/-- The keys `_build_index` registers for one file, in source order: the
primary key, then the alias keys 1/1b, 2/2b, 3/3b/3c/3d under the source's
conditions (note that aliases 1b and 2b are the same key, appended twice
when both the extracted track name and the flexible album differ). -/
def addFileKeys (f : FsPath) : List IdxKey :=
  let artist := grandParentName f
  let album := parentName f
  let stem := pyStem (fileName f)
  let na := norm nfkd artist
  let nal := norm nfkd album
  let nt := norm nfkd stem
  let nfl := normalizeAlbumName nfkd album
  let ex := extractTrackName nfkd stem artist
  let part1 := [(na, nal, nt)]
  let part2 :=
    if ex ≠ nt then
      (na, nal, ex) :: (if nfl ≠ nal then [(na, nfl, ex)] else [])
    else []
  let part3 :=
    if nfl ≠ nal then
      (na, nfl, nt) :: (if ex ≠ nt then [(na, nfl, ex)] else [])
    else []
  let tnpRaw := pyStrip (bracketSub '[' ']' (bracketSub '(' ')' stem))
  let part4 :=
    if tnpRaw ≠ [] ∧ tnpRaw ≠ stem then
      let ntnp := norm nfkd tnpRaw
      if ntnp ≠ nt then
        ((na, nal, ntnp) :: (if nfl ≠ nal then [(na, nfl, ntnp)] else [])) ++
        (let exnp := extractTrackName nfkd tnpRaw artist
         if exnp ≠ ntnp then
           (na, nal, exnp) :: (if nfl ≠ nal then [(na, nfl, exnp)] else [])
         else [])
      else []
    else []
  part1 ++ part2 ++ part3 ++ part4

/-- The per-file registration of `_build_index`: one
`setdefault(...).append(f)` per key of `addFileKeys`, in order. -/
def addFile (idx : Index) (f : FsPath) : Index :=
  (addFileKeys nfkd f).foldl (fun acc k => indexAppend acc k f) idx

/-- `_build_index`: index every audio file of the walk, in discovery
order. -/
def buildIndex (files : List FsPath) : Index :=
  (files.filter isAudioFile).foldl (addFile nfkd) []

end WithNFKD2

/-! ### The resolution cascade -/

/-- Strategy 4's token acceptance (the outer `if title_tokens:` guard of the
source folded into the first conjunct): all title tokens in the track name,
or the reverse subset with at least two track tokens, or a 2/3 overlap of
the smaller set when both sets have at least two tokens. -/
def accept4 (tt tr : Finset Str) : Prop :=
  tt ≠ ∅ ∧ (tt ⊆ tr ∨ (tr ⊆ tt ∧ 2 ≤ tr.card) ∨
    (tr ≠ ∅ ∧ 2 ≤ min tt.card tr.card ∧
      min tt.card tr.card * 2 / 3 ≤ (tt ∩ tr).card))

instance accept4Dec (tt tr : Finset Str) : Decidable (accept4 tt tr) := by
  unfold accept4; infer_instance

/-- Strategy 6's token acceptance: as strategy 4's, but the title-subset
branch additionally requires at least two title tokens. -/
def accept6 (tt tr : Finset Str) : Prop :=
  (tt ≠ ∅ ∧ tt ⊆ tr ∧ 2 ≤ tt.card) ∨ (tr ⊆ tt ∧ 2 ≤ tr.card) ∨
  (tt ≠ ∅ ∧ tr ≠ ∅ ∧ 2 ≤ min tt.card tr.card ∧
    min tt.card tr.card * 2 / 3 ≤ (tt ∩ tr).card)

instance accept6Dec (tt tr : Finset Str) : Decidable (accept6 tt tr) := by
  unfold accept6; infer_instance

/-- Strategy 7's token acceptance: only the two subset branches. -/
def accept7 (tt tr : Finset Str) : Prop :=
  (tt ≠ ∅ ∧ tt ⊆ tr ∧ 2 ≤ tt.card) ∨ (tr ⊆ tt ∧ 2 ≤ tr.card)

instance accept7Dec (tt tr : Finset Str) : Decidable (accept7 tt tr) := by
  unfold accept7; infer_instance

/-- `for (a, al, t), paths in index.items(): if P(a, al, t): matches.extend(paths)`:
the concatenation, in insertion order, of the path lists of all entries
whose key satisfies `P`. -/
def itemsSelect (idx : Index) (P : IdxKey → Prop) [DecidablePred P] :
    List FsPath :=
  (idx.map (fun e => if P e.1 then e.2 else [])).flatten

/-- The compilation-folder aliases of strategy 7, in source order. -/
def vaNamesList : List Str :=
  ["various artists".data, "various".data, "va".data, "compilation".data,
   "compilations".data, "soundtrack".data, "soundtracks".data, "ost".data]

section WithNFKD3

variable (nfkd : Str → Str)

/-- Strategy 7: for each compilation alias in order — album-constrained
exact/extracted lookups, else artist-exact, else token acceptance; stop at
the first alias that produced any match. -/
def strategy7Go (idx : Index) (nal nfl nti : Str) (tt : Finset Str)
    (exTitle : Str) : List Str → List FsPath
  | [] => []
  | va :: rest =>
    let nva := norm nfkd va
    let albumPart := ([nal, nfl].map (fun alt =>
      if alt ≠ [] then
        indexGet idx (nva, alt, nti) ++
          (if exTitle ≠ nti then indexGet idx (nva, alt, exTitle) else [])
      else [])).flatten
    if albumPart ≠ [] then albumPart
    else
      let exactPart := itemsSelect idx (fun k => k.1 = nva ∧ k.2.2 = nti)
      if exactPart ≠ [] then exactPart
      else
        let tokenPart :=
          itemsSelect idx (fun k => k.1 = nva ∧ accept7 tt (tokensOf k.2.2))
        if tokenPart ≠ [] then tokenPart
        else strategy7Go idx nal nfl nti tt exTitle rest

/-- The values the seven strategies of `match_playlist_to_library` would
contribute for one desired track.  Each strategy runs only while `matches`
is still empty, so the cascade's final match list is the first nonempty
entry of this list (see `trackMatches`). -/
def trackStages (idx : Index) (artist album title : Str) :
    List (List FsPath) :=
  let na := norm nfkd artist
  let nal := norm nfkd album
  let nfl := normalizeAlbumName nfkd album
  let nti := norm nfkd title
  let tt := tokensOf nti
  let exTitle := extractTrackName nfkd title artist
  let m1 := indexGet idx (na, nal, nti)
  let m2 := if nfl ≠ nal then indexGet idx (na, nfl, nti) else []
  let m3 := ([nal, nfl].map (fun alt =>
    if alt ≠ [] then
      indexGet idx (na, alt, nti) ++
        (if exTitle ≠ nti then indexGet idx (na, alt, exTitle) else [])
    else [])).flatten
  let m4 := itemsSelect idx (fun k =>
    k.1 = na ∧ (k.2.1 = nal ∨ (nfl ≠ [] ∧ k.2.1 = nfl)) ∧
      accept4 tt (tokensOf k.2.2))
  let m5 :=
    let tnp := pyStrip (bracketSub '[' ']' (bracketSub '(' ')' title))
    if tnp ≠ [] ∧ tnp ≠ title then
      ([nal, nfl].map (fun alt =>
        if alt ≠ [] then indexGet idx (na, alt, norm nfkd tnp) else [])).flatten
    else []
  let m6 :=
    let exactPart := itemsSelect idx (fun k => k.1 = na ∧ k.2.2 = nti)
    if exactPart ≠ [] then exactPart
    else itemsSelect idx (fun k => k.1 = na ∧ accept6 tt (tokensOf k.2.2))
  let m7 := strategy7Go nfkd idx nal nfl nti tt exTitle vaNamesList
  [m1, m2, m3, m4, m5, m6, m7]

end WithNFKD3

/-- The first nonempty stage value — the cascade's accumulated `matches`. -/
def firstNonEmpty : List (List FsPath) → List FsPath
  | [] => []
  | m :: rest => if m ≠ [] then m else firstNonEmpty rest

/-- 1-based position of the first nonempty stage: which strategy fired. -/
def firstNonEmptyIdx (n : Nat) : List (List FsPath) → Option Nat
  | [] => none
  | m :: rest => if m ≠ [] then some n else firstNonEmptyIdx (n + 1) rest

/-- The final dedup of the cascade: drop every path already seen,
preserving first-occurrence order. -/
def dedupPaths (seen : List FsPath) : List FsPath → List FsPath
  | [] => []
  | p :: rest =>
    if p ∈ seen then dedupPaths seen rest
    else p :: dedupPaths (p :: seen) rest

/-- The cascade's deduplicated match list for one desired track. -/
def trackMatches (nfkd : Str → Str) (idx : Index) (artist album title : Str) :
    List FsPath :=
  dedupPaths [] (firstNonEmpty (trackStages nfkd idx artist album title))

/-- Which strategy (1–7) resolved the track, if any. -/
def firedStrategy (nfkd : Str → Str) (idx : Index)
    (artist album title : Str) : Option Nat :=
  firstNonEmptyIdx 1 (trackStages nfkd idx artist album title)

/-! ### Candidate scoring and the top-level function -/

/-- Insert into a score-descending list: before the first element of
strictly smaller score, after every element of greater-or-equal score. -/
def insScoreDesc (x : Nat × FsPath) :
    List (Nat × FsPath) → List (Nat × FsPath)
  | [] => [x]
  | y :: ys => if y.1 ≤ x.1 then x :: y :: ys else y :: insScoreDesc x ys

/-- `scored.sort(key=lambda x: x[0], reverse=True)`: stable descending sort
by score (insertion sort; an element is inserted before the later-listed
elements of equal score, preserving their original relative order). -/
def sortScoreDesc : List (Nat × FsPath) → List (Nat × FsPath)
  | [] => []
  | x :: rest => insScoreDesc x (sortScoreDesc rest)

/-- The candidate block of `match_playlist_to_library` (lines 445–455):
score every candidate by token overlap with the desired title, keep the
positive scores in discovery order, stable-sort descending, truncate. -/
def scoreCandidates (nfkd : Str → Str) (want : Finset Str)
    (cands : List FsPath) (limit : Nat) : List FsPath :=
  let scored := cands.filterMap (fun p =>
    let score := (want ∩ tokensOf (norm nfkd (pyStem (fileName p)))).card
    if 0 < score then some (score, p) else none)
  ((sortScoreDesc scored).take limit).map Prod.snd

/-- A normalized `(artist, album)` grouping key. -/
abbrev AAKey := Str × Str

/-- `artist_album_to_paths.setdefault((a, al), []).extend(paths)`. -/
def aaExtend : List (AAKey × List FsPath) → AAKey → List FsPath →
    List (AAKey × List FsPath)
  | [], k, ps => [(k, ps)]
  | e :: rest, k, ps =>
    if e.1 = k then (e.1, e.2 ++ ps) :: rest
    else e :: aaExtend rest k ps

/-- `artist_album_to_paths.get(aa_key, [])`. -/
def aaGet : List (AAKey × List FsPath) → AAKey → List FsPath
  | [], _ => []
  | e :: rest, k => if e.1 = k then e.2 else aaGet rest k

/-- The `(artist, album) -> paths` grouping precomputed for candidate
search, folding over the index in insertion order. -/
def aaBuild (idx : Index) : List (AAKey × List FsPath) :=
  idx.foldl (fun m e => aaExtend m (e.1.1, e.1.2.1) e.2) []

/-- One desired-track record, with the `or ""` defaulting of the source
already applied to `artist`/`release`/`song`. -/
structure Track where
  time : Str
  artist : Str
  release : Str
  song : Str
deriving DecidableEq

/-- One per-track result dict.  `candidatePaths = none` models the absence
of the `"candidate_paths"` key. -/
structure MatchItem where
  time : Str
  artist : Str
  album : Str
  song : Str
  matchStatus : Str
  matchedPaths : List FsPath
  candidatePaths : Option (List FsPath)
deriving DecidableEq

/-- The summary dict. -/
structure Summary where
  libraryRoot : FsPath
  totalTracks : Nat
  found : Nat
  missing : Nat
deriving DecidableEq

/-- The returned dict: meta (pass-through), summary, per-track results. -/
structure MatchOutput where
  meta : Str
  summary : Summary
  results : List MatchItem
deriving DecidableEq

/-- The per-track body of the main loop (lines 257–457). -/
def processTrack (nfkd : Str → Str) (idx : Index)
    (aaMap : List (AAKey × List FsPath)) (includeCandidates : Bool)
    (maxCandidates : Nat) (t : Track) : MatchItem :=
  let ms := trackMatches nfkd idx t.artist t.release t.song
  { time := t.time
    artist := t.artist
    album := t.release
    song := t.song
    matchStatus := if ms.isEmpty then "missing".data else "found".data
    matchedPaths := ms
    candidatePaths :=
      if ms.isEmpty ∧ includeCandidates then
        some (scoreCandidates nfkd (tokensOf (norm nfkd t.song))
          (aaGet aaMap (norm nfkd t.artist, norm nfkd t.release))
          maxCandidates)
      else none }

/-- The main loop: the result list in input order together with the
running `found_count`. -/
def processAll (nfkd : Str → Str) (idx : Index)
    (aaMap : List (AAKey × List FsPath)) (includeCandidates : Bool)
    (maxCandidates : Nat) : List Track → List MatchItem × Nat
  | [] => ([], 0)
  | t :: rest =>
    let item := processTrack nfkd idx aaMap includeCandidates maxCandidates t
    let (rs, c) := processAll nfkd idx aaMap includeCandidates maxCandidates rest
    (item :: rs, (if item.matchedPaths.isEmpty then 0 else 1) + c)

/-- `str(library_root)`: slash-joined absolute path. -/
def renderPath (f : FsPath) : Str := '/' :: List.intercalate ['/'] f

/-- `match_playlist_to_library`.  `rootExists` models
`library_root.exists()` for the already-resolved root; `files` is the list
of regular files `rglob` yields under the root in walk order when the root
is a directory — on an existing non-directory, `pathlib`'s glob machinery
yields nothing, modelled by `rootIsDir = false`.  A raised
`FileNotFoundError` is an `Except.error` carrying the message. -/
def matchPlaylistToLibrary (nfkd : Str → Str) (rootExists rootIsDir : Bool)
    (libraryRoot : FsPath) (files : List FsPath) (meta : Str)
    (tracks : List Track) (includeCandidates : Bool) (maxCandidates : Nat) :
    Except Str MatchOutput :=
  if rootExists then
    let walked := if rootIsDir then files else []
    let idx := buildIndex nfkd walked
    let aaMap := if includeCandidates then aaBuild idx else []
    let rc := processAll nfkd idx aaMap includeCandidates maxCandidates tracks
    Except.ok
      { meta := meta
        summary :=
          { libraryRoot := libraryRoot
            totalTracks := rc.1.length
            found := rc.2
            missing := rc.1.length - rc.2 }
        results := rc.1 }
  else Except.error ("Library root not found: ".data ++ renderPath libraryRoot)

/-- Did the call return normally (no exception)? -/
def exceptIsOk {ε α : Type} : Except ε α → Bool
  | Except.ok _ => true
  | Except.error _ => false

instance exceptDecEq {ε α : Type} [DecidableEq ε] [DecidableEq α] :
    DecidableEq (Except ε α) := fun a b =>
  match a, b with
  | .ok x, .ok y =>
    if h : x = y then isTrue (by rw [h])
    else isFalse (by intro hc; cases hc; exact h rfl)
  | .error x, .error y =>
    if h : x = y then isTrue (by rw [h])
    else isFalse (by intro hc; cases hc; exact h rfl)
  | .ok _, .error _ => isFalse (by intro hc; cases hc)
  | .error _, .ok _ => isFalse (by intro hc; cases hc)

/-! ## Supporting lemmas -/

theorem processAll_fst (nfkd : Str → Str) (idx : Index)
    (aaMap : List (AAKey × List FsPath)) (inc : Bool) (mc : Nat)
    (ts : List Track) :
    (processAll nfkd idx aaMap inc mc ts).1 =
      ts.map (processTrack nfkd idx aaMap inc mc) := by
  induction ts with
  | nil => rfl
  | cons t rest ih => simp [processAll, ih]

theorem processTrack_status_def (nfkd : Str → Str) (idx : Index)
    (aaMap : List (AAKey × List FsPath)) (inc : Bool) (mc : Nat) (t : Track) :
    (processTrack nfkd idx aaMap inc mc t).matchStatus =
      (if (processTrack nfkd idx aaMap inc mc t).matchedPaths.isEmpty
        then "missing".data else "found".data) := rfl

theorem processTrack_found_iff (nfkd : Str → Str) (idx : Index)
    (aaMap : List (AAKey × List FsPath)) (inc : Bool) (mc : Nat) (t : Track) :
    (processTrack nfkd idx aaMap inc mc t).matchStatus = "found".data ↔
      (processTrack nfkd idx aaMap inc mc t).matchedPaths ≠ [] := by
  rw [processTrack_status_def]
  by_cases h : (processTrack nfkd idx aaMap inc mc t).matchedPaths.isEmpty
  · rw [if_pos h]
    exact iff_of_false (by decide) (by simpa using List.isEmpty_iff.mp h)
  · rw [if_neg h]
    exact iff_of_true rfl (fun hl => h (by simp [hl]))

theorem processAll_snd (nfkd : Str → Str) (idx : Index)
    (aaMap : List (AAKey × List FsPath)) (inc : Bool) (mc : Nat)
    (ts : List Track) :
    (processAll nfkd idx aaMap inc mc ts).2 =
      ((processAll nfkd idx aaMap inc mc ts).1.filter
        (fun r => decide (r.matchStatus = "found".data))).length := by
  induction ts with
  | nil => rfl
  | cons t rest ih =>
    simp only [processAll, List.filter_cons]
    by_cases h : (processTrack nfkd idx aaMap inc mc t).matchedPaths.isEmpty
    · have hP : decide ((processTrack nfkd idx aaMap inc mc t).matchStatus
          = "found".data) = false := by
        rw [decide_eq_false_iff_not, processTrack_found_iff]
        simpa using List.isEmpty_iff.mp h
      rw [hP]
      simp [h, ih]
    · have hP : decide ((processTrack nfkd idx aaMap inc mc t).matchStatus
          = "found".data) = true := by
        rw [decide_eq_true_eq, processTrack_found_iff]
        exact fun hl => h (by simp [hl])
      rw [hP]
      simp only [h, if_false, if_true, Bool.false_eq_true,
        List.length_cons, ih]
      omega

theorem processTrack_cand_def (nfkd : Str → Str) (idx : Index)
    (aaMap : List (AAKey × List FsPath)) (inc : Bool) (mc : Nat) (t : Track) :
    (processTrack nfkd idx aaMap inc mc t).candidatePaths =
      (if (processTrack nfkd idx aaMap inc mc t).matchedPaths.isEmpty ∧ inc = true
        then some (scoreCandidates nfkd (tokensOf (norm nfkd t.song))
          (aaGet aaMap (norm nfkd t.artist, norm nfkd t.release)) mc)
        else none) := rfl

theorem processTrack_cand_only_missing (nfkd : Str → Str) (idx : Index)
    (aaMap : List (AAKey × List FsPath)) (inc : Bool) (mc : Nat) (t : Track) :
    (processTrack nfkd idx aaMap inc mc t).candidatePaths ≠ none →
      (processTrack nfkd idx aaMap inc mc t).matchStatus = "missing".data ∧
        inc = true := by
  intro hc
  rw [processTrack_cand_def] at hc
  split at hc
  · rename_i hcond
    exact ⟨by rw [processTrack_status_def, if_pos hcond.1], hcond.2⟩
  · exact absurd rfl hc

/-! ## C1 -/

/-- C1: for every track record processed by `match_playlist_to_library`,
`match_status = "found"` iff `matched_paths` is nonempty, and the
`candidate_paths` key is present only when the status is `"missing"` and
`include_candidates` is true. -/
theorem c1_matchResult_invariant (nfkd : Str → Str)
    (rootExists rootIsDir : Bool) (root : FsPath) (files : List FsPath)
    (meta : Str) (tracks : List Track) (inc : Bool) (mc : Nat)
    (out : MatchOutput) (item : MatchItem)
    (hok : matchPlaylistToLibrary nfkd rootExists rootIsDir root files meta
      tracks inc mc = Except.ok out)
    (hmem : item ∈ out.results) :
    (item.matchStatus = "found".data ↔ item.matchedPaths ≠ []) ∧
    (item.candidatePaths ≠ none →
      item.matchStatus = "missing".data ∧ inc = true) := by
  cases rootExists with
  | false => simp [matchPlaylistToLibrary] at hok
  | true =>
    rw [matchPlaylistToLibrary, if_pos rfl] at hok
    injection hok with hout
    rw [← hout] at hmem
    simp only at hmem
    rw [processAll_fst] at hmem
    obtain ⟨t, _, rfl⟩ := List.mem_map.mp hmem
    exact ⟨processTrack_found_iff _ _ _ _ _ _,
      processTrack_cand_only_missing _ _ _ _ _ _⟩

/-- Scenario data: one desired track against an empty library. -/
def trackW : Track := ⟨"t".data, "A".data, "B".data, "S".data⟩

/-- The result item `trackW` yields against an empty library. -/
def itemW : MatchItem :=
  ⟨"t".data, "A".data, "B".data, "S".data, "missing".data, [], some []⟩

/-- The output for `trackW` against an empty library. -/
def outW : MatchOutput := ⟨"m".data, ⟨["L".data], 1, 0, 1⟩, [itemW]⟩

theorem c1_matchResult_invariant_witness :
    (itemW.matchStatus = "found".data ↔ itemW.matchedPaths ≠ []) ∧
    (itemW.candidatePaths ≠ none →
      itemW.matchStatus = "missing".data ∧ true = true) :=
  c1_matchResult_invariant id true true ["L".data] [] "m".data [trackW]
    true 5 outW itemW (by decide) (by decide)

/-! ## C10 -/

/-- C10: `match_playlist_to_library` returns exactly one result per input
track, in input order (witnessed by the pass-through `time`, `artist`,
`album`, `song` fields), and the summary satisfies
`total_tracks = |results|`, `found + missing = total_tracks`, and
`found` = number of results with status `"found"`. -/
theorem c10_results_and_summary (nfkd : Str → Str)
    (rootExists rootIsDir : Bool) (root : FsPath) (files : List FsPath)
    (meta : Str) (tracks : List Track) (inc : Bool) (mc : Nat)
    (out : MatchOutput)
    (hok : matchPlaylistToLibrary nfkd rootExists rootIsDir root files meta
      tracks inc mc = Except.ok out) :
    out.results.map (fun r => (r.time, r.artist, r.album, r.song)) =
      tracks.map (fun t => (t.time, t.artist, t.release, t.song)) ∧
    out.summary.totalTracks = out.results.length ∧
    out.summary.found + out.summary.missing = out.summary.totalTracks ∧
    out.summary.found = (out.results.filter
      (fun r => decide (r.matchStatus = "found".data))).length := by
  cases rootExists with
  | false => simp [matchPlaylistToLibrary] at hok
  | true =>
    rw [matchPlaylistToLibrary, if_pos rfl] at hok
    injection hok with hout
    rw [← hout]
    simp only
    refine ⟨?_, by trivial, ?_, ?_⟩
    · rw [processAll_fst, List.map_map]
      rfl
    · have hle := processAll_snd nfkd
        (buildIndex nfkd (if rootIsDir = true then files else []))
        (if inc = true then aaBuild
          (buildIndex nfkd (if rootIsDir = true then files else [])) else [])
        inc mc tracks
      have := List.length_filter_le
        (fun r => decide (r.matchStatus = "found".data))
        (processAll nfkd
          (buildIndex nfkd (if rootIsDir = true then files else []))
          (if inc = true then aaBuild
            (buildIndex nfkd (if rootIsDir = true then files else [])) else [])
          inc mc tracks).1
      omega
    · exact processAll_snd _ _ _ _ _ _

theorem c10_results_and_summary_witness :
    outW.results.map (fun r => (r.time, r.artist, r.album, r.song)) =
      [trackW].map (fun t => (t.time, t.artist, t.release, t.song)) ∧
    outW.summary.totalTracks = outW.results.length ∧
    outW.summary.found + outW.summary.missing = outW.summary.totalTracks ∧
    outW.summary.found = (outW.results.filter
      (fun r => decide (r.matchStatus = "found".data))).length :=
  c10_results_and_summary id true true ["L".data] [] "m".data [trackW]
    true 5 outW (by decide)

/-! ## Index lemmas -/

theorem indexGet_indexAppend (idx : Index) (k' : IdxKey) (f : FsPath)
    (k : IdxKey) :
    indexGet (indexAppend idx k' f) k =
      if k = k' then indexGet idx k ++ [f] else indexGet idx k := by
  induction idx with
  | nil =>
    by_cases h : k = k'
    · subst h; simp [indexAppend, indexGet]
    · have h' : ¬ (k' = k) := fun hh => h hh.symm
      simp [indexAppend, indexGet, h, h']
  | cons e rest ih =>
    by_cases he : e.1 = k'
    · simp only [indexAppend, if_pos he]
      by_cases hk : k = k'
      · subst hk
        simp [indexGet, he]
      · have hek : ¬ e.1 = k := fun h => hk (h ▸ he)
        simp [indexGet, hek, hk]
    · simp only [indexAppend, if_neg he]
      by_cases hk : e.1 = k
      · have : ¬ k = k' := fun h => he (hk.trans h)
        simp [indexGet, hk, this]
      · simp [indexGet, hk, ih]

theorem mem_indexGet_foldl_of_mem (g : FsPath) (ks : List IdxKey) :
    ∀ (idx : Index) (k : IdxKey) (f : FsPath), f ∈ indexGet idx k →
      f ∈ indexGet (ks.foldl (fun acc k' => indexAppend acc k' g) idx) k := by
  induction ks with
  | nil => intro idx k f hf; exact hf
  | cons k0 ks ih =>
    intro idx k f hf
    simp only [List.foldl_cons]
    apply ih
    rw [indexGet_indexAppend]
    by_cases h : k = k0
    · rw [if_pos h]; exact List.mem_append_left _ hf
    · rw [if_neg h]; exact hf

theorem mem_indexGet_foldl_sound (g : FsPath) (ks : List IdxKey) :
    ∀ (idx : Index) (k : IdxKey) (f : FsPath),
      f ∈ indexGet (ks.foldl (fun acc k' => indexAppend acc k' g) idx) k →
      f ∈ indexGet idx k ∨ f = g := by
  induction ks with
  | nil => intro idx k f hf; exact Or.inl hf
  | cons k0 ks ih =>
    intro idx k f hf
    simp only [List.foldl_cons] at hf
    rcases ih _ _ _ hf with hmem | rfl
    · rw [indexGet_indexAppend] at hmem
      by_cases h : k = k0
      · rw [if_pos h] at hmem
        rcases List.mem_append.mp hmem with h1 | h2
        · exact Or.inl h1
        · exact Or.inr (List.mem_singleton.mp h2)
      · rw [if_neg h] at hmem
        exact Or.inl hmem
    · exact Or.inr rfl

theorem mem_indexGet_foldl_of_key (g : FsPath) (ks : List IdxKey) :
    ∀ (idx : Index) (k : IdxKey), k ∈ ks →
      g ∈ indexGet (ks.foldl (fun acc k' => indexAppend acc k' g) idx) k := by
  induction ks with
  | nil => intro idx k h; exact absurd h (List.not_mem_nil _)
  | cons k0 ks ih =>
    intro idx k h
    simp only [List.foldl_cons]
    rcases List.mem_cons.mp h with rfl | hk
    · apply mem_indexGet_foldl_of_mem
      rw [indexGet_indexAppend, if_pos rfl]
      exact List.mem_append_right _ (List.mem_singleton.mpr rfl)
    · exact ih _ _ hk

theorem primaryKey_mem_addFileKeys (nfkd : Str → Str) (f : FsPath) :
    primaryKey nfkd f ∈ addFileKeys nfkd f := by
  unfold addFileKeys primaryKey
  simp

theorem mem_indexGet_addFile_self (nfkd : Str → Str) (idx : Index)
    (f : FsPath) :
    f ∈ indexGet (addFile nfkd idx f) (primaryKey nfkd f) := by
  unfold addFile
  exact mem_indexGet_foldl_of_key _ _ _ _ (primaryKey_mem_addFileKeys nfkd f)

theorem mem_buildIndex_sound (nfkd : Str → Str) (files : List FsPath)
    (k : IdxKey) (f : FsPath)
    (hf : f ∈ indexGet (buildIndex nfkd files) k) :
    f ∈ files ∧ isAudioFile f = true := by
  unfold buildIndex at hf
  suffices h : ∀ (fs : List FsPath) (idx : Index),
      f ∈ indexGet (fs.foldl (addFile nfkd) idx) k →
      f ∈ indexGet idx k ∨ f ∈ fs by
    rcases h (files.filter isAudioFile) [] hf with h1 | h2
    · simp [indexGet] at h1
    · exact ⟨(List.mem_filter.mp h2).1, (List.mem_filter.mp h2).2⟩
  intro fs
  induction fs with
  | nil => intro idx h; exact Or.inl h
  | cons g fs ih =>
    intro idx h
    simp only [List.foldl_cons] at h
    rcases ih _ h with hmem | hin
    · unfold addFile at hmem
      rcases mem_indexGet_foldl_sound _ _ _ _ _ hmem with h1 | rfl
      · exact Or.inl h1
      · exact Or.inr (List.mem_cons_self _ _)
    · exact Or.inr (List.mem_cons_of_mem _ hin)

theorem mem_indexGet_foldl_addFile_of_mem (nfkd : Str → Str)
    (fs : List FsPath) :
    ∀ (idx : Index) (k : IdxKey) (f : FsPath), f ∈ indexGet idx k →
      f ∈ indexGet (fs.foldl (addFile nfkd) idx) k := by
  induction fs with
  | nil => intro idx k f h; exact h
  | cons g fs ih =>
    intro idx k f h
    simp only [List.foldl_cons]
    apply ih
    unfold addFile
    exact mem_indexGet_foldl_of_mem _ _ _ _ _ h

theorem mem_buildIndex_primary (nfkd : Str → Str) (files : List FsPath)
    (f : FsPath) (hf : f ∈ files) (ha : isAudioFile f = true) :
    f ∈ indexGet (buildIndex nfkd files) (primaryKey nfkd f) := by
  unfold buildIndex
  have hmem : f ∈ files.filter isAudioFile := List.mem_filter.mpr ⟨hf, ha⟩
  suffices h : ∀ (fs : List FsPath) (idx : Index), f ∈ fs →
      f ∈ indexGet (fs.foldl (addFile nfkd) idx) (primaryKey nfkd f) from
    h _ [] hmem
  intro fs
  induction fs with
  | nil => intro idx h; exact absurd h (List.not_mem_nil _)
  | cons g fs ih =>
    intro idx h
    simp only [List.foldl_cons]
    rcases List.mem_cons.mp h with rfl | hk
    · exact mem_indexGet_foldl_addFile_of_mem nfkd fs _ _ _
        (mem_indexGet_addFile_self nfkd idx f)
    · exact ih _ hk

/-! ## C3 -/

/-- A file whose extracted track name and flexible album both differ from
the plain forms: alias keys 1b and 2b then append it twice under the same
key. -/
def c3File : FsPath := ["lib".data, "A".data, "B - EP".data, "01. Song.mp3".data]

/-- C3 counterexample: the index list under
`("a", "b", "song")` for `lib/A/B - EP/01. Song.mp3` holds the same path
twice — the per-key lists are not deduplicated. -/
theorem c3_dup_counterexample :
    ¬ (indexGet (buildIndex id [c3File])
        ("a".data, "b".data, "song".data)).Nodup := by
  decide

/-- C3 amended: per-key lists are appended in discovery order but are not
deduplicated (alias keys 1b and 2b coincide, appending the same path twice
when both the extracted track name and the flexible album differ); what
does hold is soundness: every path under every key is one of the walked
files with a recognized audio extension. -/
theorem c3_index_lists_sound (nfkd : Str → Str) (files : List FsPath)
    (k : IdxKey) (f : FsPath)
    (hf : f ∈ indexGet (buildIndex nfkd files) k) :
    f ∈ files ∧ isAudioFile f = true :=
  mem_buildIndex_sound nfkd files k f hf

theorem c3_index_lists_sound_witness :
    c3File ∈ [c3File] ∧ isAudioFile c3File = true :=
  c3_index_lists_sound id [c3File] ("a".data, "b".data, "song".data) c3File
    (by decide)

/-! ## C4 -/

/-- C4 counterexample: an existing library root that is **not** a directory
does not raise — `rglob` yields nothing, the index is empty, and a normal
all-missing result is returned. -/
theorem c4_nondir_counterexample :
    matchPlaylistToLibrary id true false ["r".data]
      [["r".data, "Song.mp3".data]] "m".data [trackW] true 5 =
    Except.ok
      { meta := "m".data
        summary := { libraryRoot := ["r".data], totalTracks := 1,
                     found := 0, missing := 1 }
        results := [⟨"t".data, "A".data, "B".data, "S".data,
          "missing".data, [], some []⟩] } := by
  decide

/-- C4 amended: `match_playlist_to_library` raises `FileNotFoundError`
(before building any index and without producing any results) iff the
resolved root does not exist; an existing root — directory or not — is
accepted, a non-directory root simply yielding an empty walk. -/
theorem c4_error_iff_root_missing (nfkd : Str → Str) (rootIsDir : Bool)
    (root : FsPath) (files : List FsPath) (meta : Str) (tracks : List Track)
    (inc : Bool) (mc : Nat) :
    matchPlaylistToLibrary nfkd false rootIsDir root files meta tracks inc mc
      = Except.error ("Library root not found: ".data ++ renderPath root) ∧
    exceptIsOk (matchPlaylistToLibrary nfkd true rootIsDir root files meta
      tracks inc mc) = true :=
  ⟨rfl, rfl⟩

/-! ## C5 -/

/-- A file directly under the library root `/Music/Library`: it has fewer
than two ancestor directories below the root. -/
def c5File : FsPath := ["Music".data, "Library".data, "song.mp3".data]

/-- C5 counterexample: a file directly under the root is **not** skipped:
it is indexed, with artist and album read from the root's own components
(`Music`/`Library`). -/
theorem c5_shallow_indexed_counterexample :
    indexGet (buildIndex id [c5File])
      ("music".data, "library".data, "song".data) = [c5File] := by
  decide

/-- C5 amended: no file is ever skipped for lacking ancestor directories
(the `try/except` in the source is dead code — `pathlib` attribute access
never raises there): every walked file with a recognized audio extension is
indexed under its primary key, the artist/album falling back to whatever
two path components precede the file name (root components or empty). -/
theorem c5_no_depth_skip (nfkd : Str → Str) (files : List FsPath)
    (f : FsPath) (hf : f ∈ files) (ha : isAudioFile f = true) :
    f ∈ indexGet (buildIndex nfkd files) (primaryKey nfkd f) :=
  mem_buildIndex_primary nfkd files f hf ha

theorem c5_no_depth_skip_witness :
    c5File ∈ indexGet (buildIndex id [c5File]) (primaryKey id c5File) :=
  c5_no_depth_skip id [c5File] c5File (by decide) (by decide)

/-! ## C6 -/

/-- The plain file of the remix scenario: `L/A/B/Song.mp3`. -/
def sfSong : FsPath := ["L".data, "A".data, "B".data, "Song.mp3".data]

/-- The remix file of the scenario: `L/A/B/Song (Remix).mp3`. -/
def sfRemix : FsPath := ["L".data, "A".data, "B".data, "Song (Remix).mp3".data]

/-- The index over the two remix-scenario files. -/
def sIdx : Index := buildIndex id [sfSong, sfRemix]

/-- C6 counterexample: in the two-file `(Remix)` scenario, a desired track
titled `Song` resolves via **strategy 1**, not via strategy 5 — the
strategy-1 lookup already succeeds. -/
theorem c6_strategy1_counterexample :
    firedStrategy id sIdx "A".data "B".data "Song".data = some 1 := by
  decide

/-- C6 amended: the desired track resolves as found via strategy 1,
matching both files — the plain file through its primary key and the remix
file through the parenthetical-stripped alias key registered at index
time.  Strategy 5 is never reached (it fires only when the desired title
itself contains a parenthetical, which `Song` does not). -/
theorem c6_remix_scenario_found_via_strategy1 :
    trackMatches id sIdx "A".data "B".data "Song".data = [sfSong, sfRemix] ∧
    firedStrategy id sIdx "A".data "B".data "Song".data = some 1 := by
  constructor
  · decide
  · decide

/-! ## C7 -/

/-- C7 counterexample: a singleton title token set contained in the track
token set — strategy 4 accepts, strategy 6 rejects (its subset branch
demands at least two title tokens). -/
theorem c7_accept_disagree_counterexample :
    accept4 ({['a']} : Finset Str) ({['a'], ['b']} : Finset Str) ∧
    ¬ accept6 ({['a']} : Finset Str) ({['a'], ['b']} : Finset Str) := by
  constructor
  · decide
  · decide

/-- C7 amended: strategy 4's and strategy 6's token acceptances agree on
every pair of token sets **except** when the title token set is a singleton
subset of the track token set, where strategy 4 accepts and strategy 6
rejects: `accept4 tt tr ↔ accept6 tt tr ∨ (|tt| = 1 ∧ tt ⊆ tr)`. -/
theorem c7_accept4_iff_accept6_or_singleton (tt tr : Finset Str) :
    accept4 tt tr ↔ (accept6 tt tr ∨ (tt.card = 1 ∧ tt ⊆ tr)) := by
  unfold accept4 accept6
  constructor
  · rintro ⟨hne, hsub | hrev | hov⟩
    · by_cases hc : tt.card = 1
      · exact Or.inr ⟨hc, hsub⟩
      · have hpos : 0 < tt.card :=
          Finset.card_pos.mpr (Finset.nonempty_iff_ne_empty.mpr hne)
        exact Or.inl (Or.inl ⟨hne, hsub, by omega⟩)
    · exact Or.inl (Or.inr (Or.inl hrev))
    · exact Or.inl (Or.inr (Or.inr ⟨hne, hov.1, hov.2.1, hov.2.2⟩))
  · rintro (h6 | ⟨hc, hsub⟩)
    · rcases h6 with ⟨hne, hsub, _⟩ | ⟨hrev, hc2⟩ | ⟨hne, htr, hmin, hov⟩
      · exact ⟨hne, Or.inl hsub⟩
      · refine ⟨?_, Or.inr (Or.inl ⟨hrev, hc2⟩)⟩
        intro he
        subst he
        rw [Finset.subset_empty.mp hrev] at hc2
        simp at hc2
      · exact ⟨hne, Or.inr (Or.inr ⟨htr, hmin, hov⟩)⟩
    · refine ⟨?_, Or.inl hsub⟩
      intro he
      subst he
      simp at hc


/-! ## C8 -/

theorem insScoreDesc_perm (x : Nat × FsPath) (l : List (Nat × FsPath)) :
    List.Perm (insScoreDesc x l) (x :: l) := by
  induction l with
  | nil => exact List.Perm.refl _
  | cons y ys ih =>
    by_cases h : y.1 ≤ x.1
    · simp only [insScoreDesc, if_pos h]
      exact List.Perm.refl _
    · simp only [insScoreDesc, if_neg h]
      exact (ih.cons y).trans (List.Perm.swap x y ys)

theorem insScoreDesc_pairwise (x : Nat × FsPath) (l : List (Nat × FsPath))
    (h : l.Pairwise (fun a b => b.1 ≤ a.1)) :
    (insScoreDesc x l).Pairwise (fun a b => b.1 ≤ a.1) := by
  induction l with
  | nil => simp [insScoreDesc]
  | cons y ys ih =>
    rcases List.pairwise_cons.mp h with ⟨hy, hys⟩
    by_cases hle : y.1 ≤ x.1
    · simp only [insScoreDesc, if_pos hle]
      refine List.pairwise_cons.mpr ⟨?_, h⟩
      intro z hz
      rcases List.mem_cons.mp hz with rfl | hzys
      · exact hle
      · exact le_trans (hy z hzys) hle
    · simp only [insScoreDesc, if_neg hle]
      refine List.pairwise_cons.mpr ⟨?_, ih hys⟩
      intro z hz
      have hz' : z ∈ x :: ys := (insScoreDesc_perm x ys).mem_iff.mp hz
      rcases List.mem_cons.mp hz' with rfl | hzys
      · exact le_of_lt (Nat.lt_of_not_le hle)
      · exact hy z hzys

theorem insScoreDesc_filter (x : Nat × FsPath) (l : List (Nat × FsPath))
    (s : Nat) (h : l.Pairwise (fun a b => b.1 ≤ a.1)) :
    (insScoreDesc x l).filter (fun e => decide (e.1 = s)) =
      (if x.1 = s
        then x :: l.filter (fun e => decide (e.1 = s))
        else l.filter (fun e => decide (e.1 = s))) := by
  induction l with
  | nil =>
    by_cases hx : x.1 = s <;> simp [insScoreDesc, List.filter, hx]
  | cons y ys ih =>
    rcases List.pairwise_cons.mp h with ⟨hy, hys⟩
    by_cases hle : y.1 ≤ x.1
    · simp only [insScoreDesc, if_pos hle]
      by_cases hx : x.1 = s <;> simp [List.filter_cons, hx]
    · simp only [insScoreDesc, if_neg hle]
      have hlt : x.1 < y.1 := Nat.lt_of_not_le hle
      by_cases hx : x.1 = s
      · have hyne : ¬ (y.1 = s) := by omega
        simp [List.filter_cons, hyne, ih hys, hx]
      · simp [List.filter_cons, ih hys, hx]

theorem sortScoreDesc_perm (l : List (Nat × FsPath)) :
    List.Perm (sortScoreDesc l) l := by
  induction l with
  | nil => exact List.Perm.refl _
  | cons x rest ih =>
    exact (insScoreDesc_perm x (sortScoreDesc rest)).trans (ih.cons x)

theorem sortScoreDesc_pairwise (l : List (Nat × FsPath)) :
    (sortScoreDesc l).Pairwise (fun a b => b.1 ≤ a.1) := by
  induction l with
  | nil => simp [sortScoreDesc]
  | cons x rest ih => exact insScoreDesc_pairwise x _ ih

theorem sortScoreDesc_filter (l : List (Nat × FsPath)) (s : Nat) :
    (sortScoreDesc l).filter (fun e => decide (e.1 = s)) =
      l.filter (fun e => decide (e.1 = s)) := by
  induction l with
  | nil => rfl
  | cons x rest ih =>
    rw [show sortScoreDesc (x :: rest) = insScoreDesc x (sortScoreDesc rest)
      from rfl]
    rw [insScoreDesc_filter x _ s (sortScoreDesc_pairwise rest)]
    by_cases hx : x.1 = s <;> simp [List.filter_cons, hx, ih]

theorem filterMap_pos_eq {α : Type} (f : α → Nat) (l : List α) :
    l.filterMap (fun a => if 0 < f a then some (f a, a) else none) =
      (l.map (fun a => (f a, a))).filter (fun sp => decide (sp.1 ≠ 0)) := by
  induction l with
  | nil => rfl
  | cons a rest ih =>
    rw [List.filterMap_cons, List.map_cons, List.filter_cons]
    by_cases h : 0 < f a
    · rw [if_pos h]
      have hd : decide ((f a, a).1 ≠ 0) = true := by
        simp only [decide_eq_true_eq]
        omega
      rw [hd]
      simp [ih]
    · rw [if_neg h]
      have hd : decide ((f a, a).1 ≠ 0) = false := by
        simp only [decide_eq_false_iff_not, Decidable.not_not]
        omega
      rw [hd]
      simp [ih]

/-- C8: the candidate scorer gives each candidate path the score
`|desired-title tokens ∩ filename-stem tokens|` (in discovery order),
drops every zero-score candidate, orders the rest by descending score with
ties kept in original discovery order — the sort is a permutation of the
scored list, score-sorted, and preserves the relative order within every
equal-score class — and truncates to at most `limit` entries. -/
theorem c8_scorer_spec (nfkd : Str → Str) (want : Finset Str)
    (cands : List FsPath) (limit : Nat) :
    scoreCandidates nfkd want cands limit =
      ((sortScoreDesc ((cands.map (fun p =>
        ((want ∩ tokensOf (norm nfkd (pyStem (fileName p)))).card, p))).filter
          (fun sp => decide (sp.1 ≠ 0)))).take limit).map Prod.snd ∧
    List.Perm
      (sortScoreDesc ((cands.map (fun p =>
        ((want ∩ tokensOf (norm nfkd (pyStem (fileName p)))).card, p))).filter
          (fun sp => decide (sp.1 ≠ 0))))
      ((cands.map (fun p =>
        ((want ∩ tokensOf (norm nfkd (pyStem (fileName p)))).card, p))).filter
          (fun sp => decide (sp.1 ≠ 0))) ∧
    (sortScoreDesc ((cands.map (fun p =>
        ((want ∩ tokensOf (norm nfkd (pyStem (fileName p)))).card, p))).filter
          (fun sp => decide (sp.1 ≠ 0)))).Pairwise (fun a b => b.1 ≤ a.1) ∧
    (∀ s : Nat,
      (sortScoreDesc ((cands.map (fun p =>
        ((want ∩ tokensOf (norm nfkd (pyStem (fileName p)))).card, p))).filter
          (fun sp => decide (sp.1 ≠ 0)))).filter (fun e => decide (e.1 = s)) =
      ((cands.map (fun p =>
        ((want ∩ tokensOf (norm nfkd (pyStem (fileName p)))).card, p))).filter
          (fun sp => decide (sp.1 ≠ 0))).filter (fun e => decide (e.1 = s))) ∧
    (scoreCandidates nfkd want cands limit).length ≤ limit := by
  refine ⟨?_, sortScoreDesc_perm _, sortScoreDesc_pairwise _,
    fun s => sortScoreDesc_filter _ s, ?_⟩
  · show ((sortScoreDesc (cands.filterMap (fun p =>
      if 0 < (want ∩ tokensOf (norm nfkd (pyStem (fileName p)))).card
      then some ((want ∩ tokensOf (norm nfkd (pyStem (fileName p)))).card, p)
      else none))).take limit).map Prod.snd = _
    rw [filterMap_pos_eq (fun p =>
      (want ∩ tokensOf (norm nfkd (pyStem (fileName p)))).card) cands]
  · show (((sortScoreDesc (cands.filterMap (fun p =>
      if 0 < (want ∩ tokensOf (norm nfkd (pyStem (fileName p)))).card
      then some ((want ∩ tokensOf (norm nfkd (pyStem (fileName p)))).card, p)
      else none))).take limit).map Prod.snd).length ≤ limit
    rw [List.length_map]
    exact List.length_take_le _ _

/-! ## C9 -/

/-- Nonemptiness transfer between the values a stage takes on two
indexes. -/
def NeNilMono (x y : List FsPath) : Prop := x ≠ [] → y ≠ []

theorem mono_empty {y : List FsPath} : NeNilMono [] y :=
  fun h => absurd rfl h

theorem mono_append {a a' b b' : List FsPath}
    (ha : NeNilMono a a') (hb : NeNilMono b b') :
    NeNilMono (a ++ b) (a' ++ b') := by
  intro h hEq
  obtain ⟨ea', eb'⟩ := List.append_eq_nil.mp hEq
  by_cases hA : a = []
  · have hB : b ≠ [] := by
      intro hb0
      exact h (by rw [hA, hb0]; rfl)
    exact hb hB eb'
  · exact ha hA ea'

theorem mono_ifc {c : Prop} [Decidable c] {x y : List FsPath}
    (hx : NeNilMono x y) :
    NeNilMono (if c then x else []) (if c then y else []) := by
  by_cases h : c
  · rw [if_pos h, if_pos h]; exact hx
  · rw [if_neg h, if_neg h]; exact mono_empty

theorem mono_orelse {a a' b b' : List FsPath}
    (ha : NeNilMono a a') (hb : NeNilMono b b') :
    NeNilMono (if a ≠ [] then a else b) (if a' ≠ [] then a' else b') := by
  intro h
  by_cases hA' : a' = []
  · have hA : a = [] := by
      by_contra hA
      exact (ha hA) hA'
    rw [if_neg (fun hc : a ≠ [] => hc hA)] at h
    rw [if_neg (fun hc : a' ≠ [] => hc hA')]
    exact hb h
  · rw [if_pos hA']
    exact hA'

theorem indexGet_entry (idx : Index) (k : IdxKey)
    (h : indexGet idx k ≠ []) :
    ∃ e ∈ idx, e.1 = k ∧ e.2 = indexGet idx k := by
  induction idx with
  | nil => exact absurd rfl h
  | cons e rest ih =>
    by_cases he : e.1 = k
    · exact ⟨e, List.mem_cons_self _ _, he, by
        simp only [indexGet, if_pos he]⟩
    · simp only [indexGet, if_neg he] at h ⊢
      obtain ⟨e', he', hk', hv'⟩ := ih h
      exact ⟨e', List.mem_cons_of_mem _ he', hk', hv'⟩

theorem indexGet_of_entry_nodup (idx : Index)
    (hN : (idx.map Prod.fst).Nodup) {e : IdxKey × List FsPath}
    (he : e ∈ idx) : indexGet idx e.1 = e.2 := by
  induction idx with
  | nil => exact absurd he (List.not_mem_nil _)
  | cons e0 rest ih =>
    rw [List.map_cons, List.nodup_cons] at hN
    rcases List.mem_cons.mp he with rfl | hmem
    · simp [indexGet]
    · have hne : ¬ (e0.1 = e.1) := by
        intro hc
        exact hN.1 (hc ▸ List.mem_map_of_mem Prod.fst hmem)
      simp only [indexGet, if_neg hne]
      exact ih hN.2 hmem

theorem itemsSelect_ne_nil_iff (idx : Index) (P : IdxKey → Prop)
    [DecidablePred P] (hN : (idx.map Prod.fst).Nodup) :
    itemsSelect idx P ≠ [] ↔ ∃ k, P k ∧ indexGet idx k ≠ [] := by
  constructor
  · intro h
    obtain ⟨x, hx⟩ := List.exists_mem_of_ne_nil _ h
    obtain ⟨l, hl, hxl⟩ := List.mem_flatten.mp hx
    obtain ⟨e, he, rfl⟩ := List.mem_map.mp hl
    by_cases hP : P e.1
    · rw [if_pos hP] at hxl
      refine ⟨e.1, hP, ?_⟩
      rw [indexGet_of_entry_nodup idx hN he]
      exact List.ne_nil_of_mem hxl
    · rw [if_neg hP] at hxl
      exact absurd hxl (List.not_mem_nil x)
  · rintro ⟨k, hP, hne⟩
    obtain ⟨e, he, hk, hv⟩ := indexGet_entry idx k hne
    obtain ⟨x, hx⟩ := List.exists_mem_of_ne_nil _ hne
    apply List.ne_nil_of_mem (a := x)
    apply List.mem_flatten.mpr
    refine ⟨if P e.1 then e.2 else [], List.mem_map_of_mem _ he, ?_⟩
    rw [hk, if_pos hP, hv]
    exact hx

theorem mono_get {I I' : Index}
    (hsub : ∀ k f, f ∈ indexGet I k → f ∈ indexGet I' k) (k : IdxKey) :
    NeNilMono (indexGet I k) (indexGet I' k) := by
  intro h
  obtain ⟨f, hf⟩ := List.exists_mem_of_ne_nil _ h
  exact List.ne_nil_of_mem (hsub k f hf)

theorem mono_items {I I' : Index}
    (hNI : (I.map Prod.fst).Nodup) (hNI' : (I'.map Prod.fst).Nodup)
    (hsub : ∀ k f, f ∈ indexGet I k → f ∈ indexGet I' k)
    (P : IdxKey → Prop) [DecidablePred P] :
    NeNilMono (itemsSelect I P) (itemsSelect I' P) := by
  intro h
  obtain ⟨k, hP, hne⟩ := (itemsSelect_ne_nil_iff I P hNI).mp h
  exact (itemsSelect_ne_nil_iff I' P hNI').mpr ⟨k, hP, mono_get hsub k hne⟩

theorem mono_strategy7 {I I' : Index} (nfkd : Str → Str)
    (hNI : (I.map Prod.fst).Nodup) (hNI' : (I'.map Prod.fst).Nodup)
    (hsub : ∀ k f, f ∈ indexGet I k → f ∈ indexGet I' k)
    (nal nfl nti : Str) (tt : Finset Str) (exTitle : Str) :
    ∀ vas : List Str,
      NeNilMono (strategy7Go nfkd I nal nfl nti tt exTitle vas)
        (strategy7Go nfkd I' nal nfl nti tt exTitle vas) := by
  intro vas
  induction vas with
  | nil => exact fun h => absurd rfl h
  | cons va rest ih =>
    simp only [strategy7Go]
    apply mono_orelse
    · simp only [List.map_cons, List.map_nil, List.flatten_cons,
        List.flatten_nil]
      exact mono_append
        (mono_ifc (mono_append (mono_get hsub _) (mono_ifc (mono_get hsub _))))
        (mono_append
          (mono_ifc (mono_append (mono_get hsub _)
            (mono_ifc (mono_get hsub _))))
          mono_empty)
    · exact mono_orelse (mono_items hNI hNI' hsub _)
        (mono_orelse (mono_items hNI hNI' hsub _) ih)

theorem firstNonEmpty_mono {ls ls' : List (List FsPath)}
    (h : List.Forall₂ NeNilMono ls ls') :
    NeNilMono (firstNonEmpty ls) (firstNonEmpty ls') := by
  induction h with
  | nil => exact fun h0 => absurd rfl h0
  | cons hxy _ ih =>
    simp only [firstNonEmpty]
    exact mono_orelse hxy ih

theorem dedupPaths_nil_eq_nil_iff (l : List FsPath) :
    dedupPaths [] l = [] ↔ l = [] := by
  cases l with
  | nil => simp [dedupPaths]
  | cons p rest => simp [dedupPaths]

/-- C9: resolution is monotone in the index.  Indexes are dicts, so their
key lists are duplicate-free; if `I'` contains every key-to-path entry of
`I` (and possibly more alias keys), a track found against `I` is also
found against `I'`. -/
theorem c9_resolution_monotone (nfkd : Str → Str) (I I' : Index)
    (hNI : (I.map Prod.fst).Nodup) (hNI' : (I'.map Prod.fst).Nodup)
    (hsub : ∀ k f, f ∈ indexGet I k → f ∈ indexGet I' k)
    (artist album title : Str)
    (hfound : trackMatches nfkd I artist album title ≠ []) :
    trackMatches nfkd I' artist album title ≠ [] := by
  unfold trackMatches at hfound ⊢
  have h1 : firstNonEmpty (trackStages nfkd I artist album title) ≠ [] :=
    fun he => hfound ((dedupPaths_nil_eq_nil_iff _).mpr he)
  have hforall : List.Forall₂ NeNilMono
      (trackStages nfkd I artist album title)
      (trackStages nfkd I' artist album title) := by
    simp only [trackStages]
    refine List.Forall₂.cons (mono_get hsub _) ?_
    refine List.Forall₂.cons (mono_ifc (mono_get hsub _)) ?_
    refine List.Forall₂.cons ?_ ?_
    · simp only [List.map_cons, List.map_nil, List.flatten_cons,
        List.flatten_nil]
      exact mono_append
        (mono_ifc (mono_append (mono_get hsub _) (mono_ifc (mono_get hsub _))))
        (mono_append
          (mono_ifc (mono_append (mono_get hsub _)
            (mono_ifc (mono_get hsub _))))
          mono_empty)
    refine List.Forall₂.cons (mono_items hNI hNI' hsub _) ?_
    refine List.Forall₂.cons ?_ ?_
    · apply mono_ifc
      simp only [List.map_cons, List.map_nil, List.flatten_cons,
        List.flatten_nil]
      exact mono_append (mono_ifc (mono_get hsub _))
        (mono_append (mono_ifc (mono_get hsub _)) mono_empty)
    refine List.Forall₂.cons
      (mono_orelse (mono_items hNI hNI' hsub _)
        (mono_items hNI hNI' hsub _)) ?_
    exact List.Forall₂.cons
      (mono_strategy7 nfkd hNI hNI' hsub _ _ _ _ _ _) List.Forall₂.nil
  have h2 : firstNonEmpty (trackStages nfkd I' artist album title) ≠ [] :=
    firstNonEmpty_mono hforall h1
  intro he
  exact h2 ((dedupPaths_nil_eq_nil_iff _).mp he)

/-- A one-entry index. -/
def c9I : Index := [(("a".data, "b".data, "c".data), [["f.mp3".data]])]

/-- `c9I` extended with one more alias key. -/
def c9Iplus : Index :=
  [(("a".data, "b".data, "c".data), [["f.mp3".data]]),
   (("a".data, "b2".data, "c".data), [["g.mp3".data]])]

theorem c9_resolution_monotone_witness :
    trackMatches id c9Iplus "a".data "b".data "c".data ≠ [] := by
  refine c9_resolution_monotone id c9I c9Iplus (by decide) (by decide)
    ?_ "a".data "b".data "c".data (by decide)
  intro k f h
  by_cases hk : (("a".data, "b".data, "c".data) : IdxKey) = k
  · simp only [c9I, indexGet, if_pos hk] at h
    simp only [c9Iplus, indexGet, if_pos hk]
    exact h
  · simp only [c9I, indexGet, if_neg hk] at h
    exact absurd h (List.not_mem_nil f)

/-! ## C2 -/

/-- The characters `_norm` can emit: lowercase ASCII letters, digits, and
the plain space. -/
def isNormOutChar (c : Char) : Bool :=
  isLowerAlpha c || isDigitC c || c.toNat = 32

theorem char_eq_of_toNat_eq {a b : Char} (h : a.toNat = b.toNat) : a = b :=
  Char.ext (UInt32.toNat.inj h)

theorem eq_space_of_ws_out {c : Char} (hws : isPyWS c = true)
    (hout : isNormOutChar c = true) : c = ' ' := by
  have h1 : c.toNat = 32 := by
    simp only [isPyWS, Bool.or_eq_true, Bool.and_eq_true,
      decide_eq_true_eq] at hws
    simp only [isNormOutChar, isLowerAlpha, isDigitC, Bool.or_eq_true,
      Bool.and_eq_true, decide_eq_true_eq] at hout
    omega
  exact char_eq_of_toNat_eq (by rw [h1]; rfl)

theorem toLower_fix {c : Char} (hout : isNormOutChar c = true) :
    c.toLower = c := by
  unfold Char.toLower
  rw [if_neg]
  simp only [isNormOutChar, isLowerAlpha, isDigitC, Bool.or_eq_true,
    Bool.and_eq_true, decide_eq_true_eq] at hout
  omega

theorem map_toLower_id {l : Str} (h : ∀ c ∈ l, isNormOutChar c = true) :
    l.map Char.toLower = l := by
  induction l with
  | nil => rfl
  | cons c rest ih =>
    simp only [List.map_cons]
    rw [toLower_fix (h c (List.mem_cons_self _ _)),
      ih (fun d hd => h d (List.mem_cons_of_mem _ hd))]

theorem featGroupAt_eq_none {op cl : Char} {d : Str}
    (h : ∀ c ∈ d, c ≠ op) : featGroupAt op cl d = none := by
  unfold featGroupAt
  split
  · rename_i o rest
    exact if_neg (h o (List.mem_cons_self _ _))
  · rfl

theorem subFeatGroupF_id (op cl : Char) :
    ∀ (fuel : Nat) (l : Str), (∀ c ∈ l, c ≠ op) →
      subFeatGroupF op cl fuel l = l := by
  intro fuel
  induction fuel with
  | zero => intro l _; rfl
  | succ fuel ih =>
    intro l h
    cases l with
    | nil => rfl
    | cons c rest =>
      have hnone : featGroupAt op cl ((c :: rest).dropWhile isPyWS) = none :=
        featGroupAt_eq_none (fun d hd =>
          h d (List.Sublist.subset (List.dropWhile_sublist _) hd))
      rw [show subFeatGroupF op cl (fuel + 1) (c :: rest) =
        (match featGroupAt op cl ((c :: rest).dropWhile isPyWS) with
          | some after => subFeatGroupF op cl fuel after
          | none => c :: subFeatGroupF op cl fuel rest) from rfl, hnone]
      rw [ih rest (fun d hd => h d (List.mem_cons_of_mem _ hd))]

theorem subFeatGroup_id {op cl : Char} {l : Str}
    (h : ∀ c ∈ l, c ≠ op) : subFeatGroup op cl l = l :=
  subFeatGroupF_id op cl l.length l h

theorem ampToAnd_id {l : Str} (h : ∀ c ∈ l, c ≠ '&') : ampToAnd l = l := by
  induction l with
  | nil => rfl
  | cons c rest ih =>
    simp only [ampToAnd, if_neg (h c (List.mem_cons_self _ _))]
    rw [ih (fun d hd => h d (List.mem_cons_of_mem _ hd))]

theorem hasSub_append_right (pat t s : Str) (h : hasSub pat s = true) :
    hasSub pat (t ++ s) = true := by
  induction t with
  | nil => exact h
  | cons t0 t ih => simp [hasSub, ih]

theorem hasSub_of_isPrefixOf (pat s : Str) (h : pat.isPrefixOf s = true) :
    hasSub pat s = true := by
  cases s with
  | nil =>
    cases pat with
    | nil => rfl
    | cons p ps => simp [List.isPrefixOf] at h
  | cons c rest => simp [hasSub, h]

theorem hasSub_of_suffix {pat s l : Str} (hp : pat.isPrefixOf s = true)
    (hs : s <:+ l) : hasSub pat l = true := by
  obtain ⟨t, rfl⟩ := hs
  exact hasSub_append_right _ _ _ (hasSub_of_isPrefixOf _ _ hp)

theorem subFeatTail_id :
    ∀ l : Str, (∀ c ∈ l, isNormOutChar c = true) →
      hasSub ('f' :: 'e' :: 'a' :: 't' :: ' ' :: []) l = false →
      subFeatTail l = l := by
  intro l
  induction l with
  | nil => intro _ _; rfl
  | cons c rest ih =>
    intro hout hfeat
    have hfeat' : hasSub ('f' :: 'e' :: 'a' :: 't' :: ' ' :: []) rest = false := by
      simp only [hasSub, Bool.or_eq_false_iff] at hfeat
      exact hfeat.2
    have hmem : ∀ d ∈ (c :: rest).dropWhile isPyWS, isNormOutChar d = true :=
      fun d hd => hout d (List.Sublist.subset (List.dropWhile_sublist _) hd)
    cases hm : featTailCoreAt ((c :: rest).dropWhile isPyWS) with
    | none =>
      rw [show subFeatTail (c :: rest) =
        (match featTailCoreAt ((c :: rest).dropWhile isPyWS) with
          | some leftover => leftover
          | none => c :: subFeatTail rest) from rfl, hm]
      rw [ih (fun d hd => hout d (List.mem_cons_of_mem _ hd)) hfeat']
    | some lo =>
      exfalso
      have hsuf : ((c :: rest).dropWhile isPyWS) <:+ (c :: rest) :=
        List.dropWhile_suffix _
      unfold featTailCoreAt at hm
      split at hm
      · rename_i r heq
        split at hm
        · rename_i r2
          -- the character after `feat` is a dot, impossible for out chars
          have hdot : '.' ∈ (c :: rest).dropWhile isPyWS := by
            rw [heq]
            simp
          exact absurd (hmem '.' hdot) (by decide)
        · -- `wsPlusDotStarEndLeft r = some lo`
          unfold wsPlusDotStarEndLeft at hm
          split at hm
          · exact absurd hm (by simp)
          · rename_i w r2 heq2
            by_cases hw : isPyWS w = true
            · have hwmem : w ∈ (c :: rest).dropWhile isPyWS := by
                rw [heq]
                simp
              have hwsp : w = ' ' := eq_space_of_ws_out hw (hmem w hwmem)
              have hpre : ('f' :: 'e' :: 'a' :: 't' :: ' ' :: []).isPrefixOf
                  ((c :: rest).dropWhile isPyWS) = true := by
                rw [heq, hwsp]
                exact List.isPrefixOf_iff_prefix.mpr ⟨r2, rfl⟩
              have := hasSub_of_suffix hpre hsuf
              rw [this] at hfeat
              exact absurd hfeat (by simp)
            · rw [if_neg hw] at hm
              exact absurd hm (by simp)
      · exact absurd hm (by simp)

/-- No two adjacent whitespace characters. -/
def NoWW (l : Str) : Prop :=
  List.Chain' (fun a b => isPyWS a = false ∨ isPyWS b = false) l

theorem mem_of_mem_pyStrip {l : Str} {c : Char} (h : c ∈ pyStrip l) :
    c ∈ l := by
  unfold pyStrip at h
  rw [List.mem_reverse] at h
  have h2 := List.Sublist.subset (List.dropWhile_sublist _) h
  rw [List.mem_reverse] at h2
  exact List.Sublist.subset (List.dropWhile_sublist _) h2

theorem mem_collapseWSAux {c : Char} :
    ∀ {l : Str} {b : Bool}, c ∈ collapseWSAux b l →
      c = ' ' ∨ (c ∈ l ∧ isPyWS c = false) := by
  intro l
  induction l with
  | nil => intro b h; exact absurd h (List.not_mem_nil c)
  | cons d rest ih =>
    intro b h
    by_cases hd : isPyWS d = true
    · cases b with
      | true =>
        simp only [collapseWSAux, if_pos hd] at h
        rcases ih h with h1 | h2
        · exact Or.inl h1
        · exact Or.inr ⟨List.mem_cons_of_mem _ h2.1, h2.2⟩
      | false =>
        simp only [collapseWSAux, if_pos hd] at h
        rcases List.mem_cons.mp h with rfl | h2
        · exact Or.inl rfl
        · rcases ih h2 with h1 | h3
          · exact Or.inl h1
          · exact Or.inr ⟨List.mem_cons_of_mem _ h3.1, h3.2⟩
    · simp only [collapseWSAux, if_neg hd] at h
      rcases List.mem_cons.mp h with rfl | h2
      · exact Or.inr ⟨List.mem_cons_self _ _, by simpa using hd⟩
      · rcases ih h2 with h1 | h3
        · exact Or.inl h1
        · exact Or.inr ⟨List.mem_cons_of_mem _ h3.1, h3.2⟩

theorem collapseWSAux_noww_head :
    ∀ (l : Str) (b : Bool),
      NoWW (collapseWSAux b l) ∧
      (b = true → ∀ d, (collapseWSAux b l).head? = some d →
        isPyWS d = false) := by
  intro l
  induction l with
  | nil =>
    intro b
    refine ⟨List.chain'_nil, ?_⟩
    intro _ d hd
    simp [collapseWSAux] at hd
  | cons c rest ih =>
    intro b
    by_cases hc : isPyWS c = true
    · cases b with
      | true =>
        simp only [collapseWSAux, if_pos hc]
        exact ⟨(ih true).1, fun _ => (ih true).2 rfl⟩
      | false =>
        simp only [collapseWSAux, if_pos hc]
        refine ⟨?_, ?_⟩
        · refine List.chain'_cons'.mpr ⟨?_, (ih true).1⟩
          intro y hy
          exact Or.inr ((ih true).2 rfl y hy)
        · intro hff
          exact absurd hff (by simp)
    · simp only [collapseWSAux, if_neg hc]
      refine ⟨?_, ?_⟩
      · refine List.chain'_cons'.mpr ⟨?_, (ih false).1⟩
        intro y _
        exact Or.inl (by simpa using hc)
      · intro _ d hd
        simp only [List.head?_cons, Option.some.injEq] at hd
        rw [← hd]
        simpa using hc

theorem collapseWSAux_true_eq_false_of_head (rest : Str)
    (h : ∀ d, rest.head? = some d → isPyWS d = false) :
    collapseWSAux true rest = collapseWSAux false rest := by
  cases rest with
  | nil => rfl
  | cons d r =>
    have hd := h d rfl
    simp [collapseWSAux, hd]

theorem collapseWSAux_false_id :
    ∀ (l : Str), (∀ c ∈ l, isPyWS c = true → c = ' ') → NoWW l →
      collapseWSAux false l = l := by
  intro l
  induction l with
  | nil => intro _ _; rfl
  | cons c rest ih =>
    intro hsp hnww
    by_cases hc : isPyWS c = true
    · have hcsp : c = ' ' := hsp c (List.mem_cons_self _ _) hc
      simp only [collapseWSAux, if_pos hc]
      have hhead : ∀ d, rest.head? = some d → isPyWS d = false := by
        intro d hd
        rcases (List.chain'_cons'.mp hnww).1 d hd with h1 | h2
        · exact absurd h1 (by simp [hc])
        · exact h2
      rw [collapseWSAux_true_eq_false_of_head rest hhead]
      rw [ih (fun d hd hw => hsp d (List.mem_cons_of_mem _ hd) hw)
        (List.Chain'.tail hnww)]
      rw [hcsp]
      simp
    · simp only [collapseWSAux, if_neg hc]
      rw [ih (fun d hd hw => hsp d (List.mem_cons_of_mem _ hd) hw)
        (List.Chain'.tail hnww)]

theorem noww_suffix {l s : Str} (h : NoWW l) (hs : s <:+ l) : NoWW s := by
  obtain ⟨t, rfl⟩ := hs
  exact (List.chain'_append.mp h).2.1

theorem noww_reverse {l : Str} (h : NoWW l) : NoWW l.reverse := by
  unfold NoWW
  rw [List.chain'_reverse]
  exact List.Chain'.imp (fun a b hab => hab.symm) h

theorem noww_pyStrip {l : Str} (h : NoWW l) : NoWW (pyStrip l) := by
  unfold pyStrip
  exact noww_reverse
    (noww_suffix (noww_reverse (noww_suffix h (List.dropWhile_suffix _)))
      (List.dropWhile_suffix _))

theorem head?_dropWhile_not {p : Char → Bool} :
    ∀ (l : Str) (d : Char), (l.dropWhile p).head? = some d → p d = false := by
  intro l
  induction l with
  | nil => intro d hd; simp [List.dropWhile] at hd
  | cons c rest ih =>
    intro d hd
    by_cases hc : p c
    · rw [List.dropWhile_cons, if_pos hc] at hd
      exact ih d hd
    · rw [List.dropWhile_cons, if_neg hc] at hd
      simp only [List.head?_cons, Option.some.injEq] at hd
      rw [← hd]
      simpa using hc

theorem dropWhile_eq_self_of_head {p : Char → Bool} {l : Str}
    (h : ∀ d, l.head? = some d → p d = false) : l.dropWhile p = l := by
  cases l with
  | nil => rfl
  | cons c rest =>
    rw [List.dropWhile_cons, if_neg]
    simp [h c rfl]

theorem suffix_getLast? {s l : Str} (hs : s <:+ l) (hne : s ≠ []) :
    s.getLast? = l.getLast? := by
  obtain ⟨t, rfl⟩ := hs
  rw [List.getLast?_append]
  cases hgl : s.getLast? with
  | none =>
    exfalso
    cases s with
    | nil => exact hne rfl
    | cons a as => simp [List.getLast?_eq_getLast] at hgl
  | some a => rfl

theorem pyStrip_idem (m : Str) : pyStrip (pyStrip m) = pyStrip m := by
  by_cases h2 : ((m.dropWhile isPyWS).reverse.dropWhile isPyWS) = []
  · show pyStrip (((m.dropWhile isPyWS).reverse.dropWhile isPyWS).reverse) =
      pyStrip m
    rw [h2, List.reverse_nil]
    show ([] : Str) = pyStrip m
    unfold pyStrip
    rw [h2]
    rfl
  · have hlast : ∀ d,
        ((m.dropWhile isPyWS).reverse.dropWhile isPyWS).getLast? = some d →
          isPyWS d = false := by
      intro d hd
      rw [suffix_getLast? (List.dropWhile_suffix _) h2] at hd
      rw [List.getLast?_reverse] at hd
      exact head?_dropWhile_not _ d hd
    have hhead : ∀ d,
        (((m.dropWhile isPyWS).reverse.dropWhile isPyWS).reverse).head? =
          some d → isPyWS d = false := by
      intro d hd
      rw [List.head?_reverse] at hd
      exact hlast d hd
    show pyStrip (((m.dropWhile isPyWS).reverse.dropWhile isPyWS).reverse) = _
    unfold pyStrip
    rw [dropWhile_eq_self_of_head hhead, List.reverse_reverse,
      dropWhile_eq_self_of_head (fun d hd => head?_dropWhile_not _ d hd)]

theorem strip_collapse_fix (w : Str) :
    pyStrip (collapseWS (pyStrip (collapseWS w))) = pyStrip (collapseWS w) := by
  have hsp : ∀ c ∈ pyStrip (collapseWS w), isPyWS c = true → c = ' ' := by
    intro c hc hws
    rcases mem_collapseWSAux (mem_of_mem_pyStrip hc) with h1 | h2
    · exact h1
    · rw [h2.2] at hws
      exact absurd hws (by simp)
  have hnww : NoWW (pyStrip (collapseWS w)) :=
    noww_pyStrip (collapseWSAux_noww_head w false).1
  rw [show collapseWS (pyStrip (collapseWS w)) = pyStrip (collapseWS w) from
    collapseWSAux_false_id _ hsp hnww]
  exact pyStrip_idem _

theorem norm_out_chars (nfkd : Str → Str) (s : Str) :
    ∀ c ∈ norm nfkd s, isNormOutChar c = true := by
  intro c hc
  have hc1 : c ∈ collapseWS ((ampToAnd (subFeatTail (subFeatGroup '[' ']'
      (subFeatGroup '(' ')' ((nfkd s).map Char.toLower))))).filter
        isKeptChar) := mem_of_mem_pyStrip hc
  rcases mem_collapseWSAux hc1 with h1 | h2
  · rw [h1]; decide
  · have hk := (List.mem_filter.mp h2.1).2
    have hnw := h2.2
    simp only [isKeptChar, Bool.or_eq_true] at hk
    rcases hk with (hl | hd) | hw
    · simp [isNormOutChar, hl]
    · simp [isNormOutChar, hd]
    · rw [hw] at hnw
      exact absurd hnw (by simp)

/-- C2 counterexample: `_norm` is not idempotent.  On `"fea.t x"`,
punctuation removal produces `"feat x"`, which a second application's
feat-stripping reduces to `""`. -/
theorem c2_not_idempotent_counterexample :
    norm id (norm id "fea.t x".data) ≠ norm id "fea.t x".data := by
  decide

set_option maxHeartbeats 1600000 in
/-- C2 amended: the normalizer is idempotent on every string whose
normalized form does not contain the substring `"feat "` (`feat` followed
by a space); punctuation removal can create such a substring, and a second
application then strips from `feat` onward.  `nfkd` is the abstract NFKD
step, assumed (as is true of Unicode NFKD) to fix strings of lowercase
ASCII letters, digits and spaces. -/
theorem c2_idempotent_unless_feat (nfkd : Str → Str)
    (hascii : ∀ l : Str, (∀ c ∈ l, isNormOutChar c = true) → nfkd l = l)
    (x : Str)
    (hfeat : hasSub ('f' :: 'e' :: 'a' :: 't' :: ' ' :: []) (norm nfkd x)
      = false) :
    norm nfkd (norm nfkd x) = norm nfkd x := by
  have hout : ∀ c ∈ norm nfkd x, isNormOutChar c = true :=
    norm_out_chars nfkd x
  show pyStrip (collapseWS ((ampToAnd (subFeatTail (subFeatGroup '[' ']'
    (subFeatGroup '(' ')' ((nfkd (norm nfkd x)).map Char.toLower))))).filter
      isKeptChar)) = norm nfkd x
  rw [hascii _ hout]
  rw [map_toLower_id hout]
  rw [@subFeatGroup_id '(' ')' _ (fun c hc hcc => by
    rw [hcc] at hc
    exact absurd (hout '(' hc) (by decide))]
  rw [@subFeatGroup_id '[' ']' _ (fun c hc hcc => by
    rw [hcc] at hc
    exact absurd (hout '[' hc) (by decide))]
  rw [subFeatTail_id _ hout hfeat]
  rw [ampToAnd_id (fun c hc hcc => by
    rw [hcc] at hc
    exact absurd (hout '&' hc) (by decide))]
  rw [List.filter_eq_self.mpr (fun c hc => by
    have h1 := hout c hc
    simp only [isNormOutChar, Bool.or_eq_true] at h1
    simp only [isKeptChar, Bool.or_eq_true]
    rcases h1 with (hl | hd) | hsp
    · exact Or.inl (Or.inl hl)
    · exact Or.inl (Or.inr hd)
    · right
      simp only [isPyWS, Bool.or_eq_true]
      left; left; left; left; left; left; left; left; left; left; left
      left; left; left; left
      exact hsp)]
  exact strip_collapse_fix _

theorem c2_idempotent_unless_feat_witness :
    norm id (norm id "Hello World".data) = norm id "Hello World".data :=
  c2_idempotent_unless_feat id (fun _ _ => rfl) "Hello World".data
    (by decide)
